import Mathlib

/-!
# Click handlers of rendered rich text (core/click_handler_types.h)

A shallow embedding of the text-derived click handlers: `TextClickHandler`,
`UrlClickHandler`, `HiddenUrlClickHandler`, `MentionClickHandler`,
`HashtagClickHandler` and `BotCommandClickHandler`.

* A `QString` is the list of its characters. The header only looks for `@`,
  `/`, `:` and the ASCII letters, compares positions and concatenates, so the
  width of a character in the string plays no part.
* The Qt URL class is not part of the header; it is taken as a parameter
  (`QUrlApi`): construction from a string, `isValid`, `toEncoded`,
  `toDisplayString` and the two byte-array-to-string conversions the
  header uses.
* The clipboard and `doOpen` are effects; they are recorded in a `World`.
* The static command context of `BotCommandClickHandler` is a `CommandContext`
  that is passed explicitly.
-/

namespace ClickHandlerTypes

/-! ## Strings -/

/-- A `QString`, as the list of its characters. -/
abbrev QString := List Char

/-- Scan of `QString::indexOf(QChar)`: the position counted from `i`, or `-1`. -/
def indexOfFrom (c : Char) : QString → Int → Int
  | [], _ => -1
  | x :: xs, i => if x = c then i else indexOfFrom c xs (i + 1)

/-- The call `QString::indexOf(QChar)`: index of the first occurrence, `-1` when absent. -/
def QString.indexOf (s : QString) (c : Char) : Int :=
  indexOfFrom c s 0

/-- The call `QString::isEmpty()`. -/
def QString.isEmpty (s : QString) : Bool :=
  match s with
  | [] => true
  | _ :: _ => false

/-- The character class `[a-zA-Z]`. -/
def isAsciiLetter (c : Char) : Bool :=
  (97 ≤ c.toNat && c.toNat ≤ 122) || (65 ≤ c.toNat && c.toNat ≤ 90)

/-- Matching `[a-zA-Z]*:` at the start of the given text. -/
def matchLettersColon : QString → Bool
  | [] => false
  | c :: cs => if isAsciiLetter c then matchLettersColon cs else decide (c = ':')

/-- The call `QRegularExpression("^[a-zA-Z]+:").match(s).hasMatch()`: the pattern is
anchored at the start of the subject, asks for one letter at least, then any
further letters, then a colon. -/
def hasSchemeMatch (s : QString) : Bool :=
  match s with
  | [] => false
  | c :: cs => isAsciiLetter c && matchLettersColon cs

/-- The literal `qsl("http://")`. -/
def httpLiteral : QString := ['h', 't', 't', 'p', ':', '/', '/']

/-! ## The URL primitive -/

/-- The part of Qt's `QUrl`, `QByteArray` and `QString` interface that
`UrlClickHandler` calls. `QUrl` and `QByteArray` are the types of URL objects
and of byte arrays. -/
structure QUrlApi (QUrl QByteArray : Type) where
  /-- The call `QUrl(const QString &)`. -/
  ofString : QString → QUrl
  /-- The call `QUrl::isValid()`. -/
  isValid : QUrl → Bool
  /-- The call `QUrl::toEncoded()`. -/
  toEncoded : QUrl → QByteArray
  /-- The call `QUrl::toDisplayString()`. -/
  toDisplayString : QUrl → QString
  /-- The call `QString(const QByteArray &)`: the conversion that the conditional
  `u.isValid() ? u.toEncoded() : QString()` applies to its first branch. -/
  stringOfBytes : QByteArray → QString
  /-- The call `QString::fromUtf8(const QByteArray &)`. -/
  fromUtf8 : QByteArray → QString

variable {QUrl QByteArray : Type}

/-- The local `good` of the constructor and of `url()`:
`QUrl u(_originalUrl), good(u.isValid() ? u.toEncoded() : QString())`. -/
def goodUrl (q : QUrlApi QUrl QByteArray) (originalUrl : QString) : QUrl :=
  let u := q.ofString originalUrl
  q.ofString (if q.isValid u then q.stringOfBytes (q.toEncoded u) else [])

/-! ## UrlClickHandler -/

/-- The state of a `UrlClickHandler`: the flag of its `TextClickHandler` base
and its two strings. -/
structure UrlClickHandler where
  _fullDisplayed : Bool
  _originalUrl : QString
  _readable : QString
deriving DecidableEq, Repr

/-- The static `UrlClickHandler::isEmail(const QString &url)`. -/
def UrlClickHandler.isEmailOf (url : QString) : Bool :=
  let at_ := url.indexOf '@'
  let slash := url.indexOf '/'
  decide (at_ > 0) && (decide (slash < 0) || decide (slash > at_))

/-- The member `UrlClickHandler::isEmail()`. -/
def UrlClickHandler.isEmail (h : UrlClickHandler) : Bool :=
  UrlClickHandler.isEmailOf h._originalUrl

/-- The constructor `UrlClickHandler(const QString &url, bool fullDisplayed)`. -/
def UrlClickHandler.new (q : QUrlApi QUrl QByteArray) (url : QString)
    (fullDisplayed : Bool) : UrlClickHandler :=
  if UrlClickHandler.isEmailOf url then
    { _fullDisplayed := fullDisplayed, _originalUrl := url, _readable := url }
  else
    let good := goodUrl q url
    { _fullDisplayed := fullDisplayed, _originalUrl := url,
      _readable := if q.isValid good then q.toDisplayString good else url }

/-- The local `result` of `UrlClickHandler::url()`:
`good.isValid() ? QString::fromUtf8(good.toEncoded()) : _originalUrl`. -/
def UrlClickHandler.normalized (q : QUrlApi QUrl QByteArray) (h : UrlClickHandler) : QString :=
  let good := goodUrl q h._originalUrl
  if q.isValid good then q.fromUtf8 (q.toEncoded good) else h._originalUrl

/-- The call `UrlClickHandler::url()`. -/
def UrlClickHandler.url (q : QUrlApi QUrl QByteArray) (h : UrlClickHandler) : QString :=
  if h.isEmail then h._originalUrl
  else
    let result := h.normalized q
    if !hasSchemeMatch result then httpLiteral ++ result else result

/-- The call `UrlClickHandler::readable()`. -/
def UrlClickHandler.readable (h : UrlClickHandler) : QString :=
  h._readable

/-! ## Effects -/

/-- What the handlers act on: the text of the system clipboard, the
calls of `QApplication::clipboard()->setText` and the calls of
`UrlClickHandler::doOpen`, both in the order they were made. -/
structure World where
  clipboard : QString
  clipboardWrites : List QString
  opened : List QString
deriving DecidableEq, Repr

/-- The call `QApplication::clipboard()->setText(u)`. -/
def World.setText (w : World) (u : QString) : World :=
  { clipboard := u, clipboardWrites := w.clipboardWrites ++ [u], opened := w.opened }

/-- The static `UrlClickHandler::doOpen(QString url)`. The header only declares
it; a call is recorded with its argument. -/
def UrlClickHandler.doOpen (url : QString) (w : World) : World :=
  { clipboard := w.clipboard, clipboardWrites := w.clipboardWrites, opened := w.opened ++ [url] }

/-- The values of `Qt::MouseButton`; `Other` stands for the extra buttons. -/
inductive MouseButton where
  | NoButton
  | LeftButton
  | RightButton
  | MiddleButton
  | Other (code : Nat)
deriving DecidableEq, Repr

/-- The call `UrlClickHandler::onClick(Qt::MouseButton button)`. -/
def UrlClickHandler.onClick (q : QUrlApi QUrl QByteArray) (h : UrlClickHandler)
    (button : MouseButton) (w : World) : World :=
  if button = MouseButton.LeftButton || button = MouseButton.MiddleButton then
    UrlClickHandler.doOpen (h.url q) w
  else w

/-! ## The other text handlers -/

/-- The constructor `HiddenUrlClickHandler(QString url)`, which is
`UrlClickHandler(url, false)`. -/
def HiddenUrlClickHandler.new (q : QUrlApi QUrl QByteArray) (url : QString) : UrlClickHandler :=
  UrlClickHandler.new q url false

/-- The state of a `MentionClickHandler`. -/
structure MentionClickHandler where
  _fullDisplayed : Bool
  _tag : QString
deriving DecidableEq, Repr

/-- The constructor `MentionClickHandler(const QString &tag)`; the base is
built with its default argument `fullDisplayed = true`. -/
def MentionClickHandler.new (tag : QString) : MentionClickHandler :=
  { _fullDisplayed := true, _tag := tag }

/-- The call `MentionClickHandler::url()`. -/
def MentionClickHandler.url (h : MentionClickHandler) : QString :=
  h._tag

/-- The state of a `HashtagClickHandler`. -/
structure HashtagClickHandler where
  _fullDisplayed : Bool
  _tag : QString
deriving DecidableEq, Repr

/-- The constructor `HashtagClickHandler(const QString &tag)`. -/
def HashtagClickHandler.new (tag : QString) : HashtagClickHandler :=
  { _fullDisplayed := true, _tag := tag }

/-- The call `HashtagClickHandler::url()`. -/
def HashtagClickHandler.url (h : HashtagClickHandler) : QString :=
  h._tag

/-- The state of a `BotCommandClickHandler` object; the static members
`_peer` and `_bot` are in `CommandContext`. -/
structure BotCommandClickHandler where
  _fullDisplayed : Bool
  _cmd : QString
deriving DecidableEq, Repr

/-- The constructor `BotCommandClickHandler(const QString &cmd)`. -/
def BotCommandClickHandler.new (cmd : QString) : BotCommandClickHandler :=
  { _fullDisplayed := true, _cmd := cmd }

/-- The call `BotCommandClickHandler::url()`. -/
def BotCommandClickHandler.url (h : BotCommandClickHandler) : QString :=
  h._cmd

/-! ## TextClickHandler -/

/-- A text-derived handler: an object of one of the classes that derive from
`TextClickHandler`. -/
inductive TextClickHandler where
  | Url (h : UrlClickHandler)
  | HiddenUrl (h : UrlClickHandler)
  | Mention (h : MentionClickHandler)
  | Hashtag (h : HashtagClickHandler)
  | BotCommand (h : BotCommandClickHandler)
deriving DecidableEq, Repr

/-- The member `_fullDisplayed` of the base. -/
def TextClickHandler.fullDisplayed : TextClickHandler → Bool
  | .Url h => h._fullDisplayed
  | .HiddenUrl h => h._fullDisplayed
  | .Mention h => h._fullDisplayed
  | .Hashtag h => h._fullDisplayed
  | .BotCommand h => h._fullDisplayed

/-- The call `TextClickHandler::setFullDisplayed(bool full)`. -/
def TextClickHandler.setFullDisplayed (t : TextClickHandler) (full : Bool) : TextClickHandler :=
  match t with
  | .Url h => .Url { _fullDisplayed := full, _originalUrl := h._originalUrl, _readable := h._readable }
  | .HiddenUrl h =>
    .HiddenUrl { _fullDisplayed := full, _originalUrl := h._originalUrl, _readable := h._readable }
  | .Mention h => .Mention { _fullDisplayed := full, _tag := h._tag }
  | .Hashtag h => .Hashtag { _fullDisplayed := full, _tag := h._tag }
  | .BotCommand h => .BotCommand { _fullDisplayed := full, _cmd := h._cmd }

/-- The virtual `url()`, dispatched on the class of the object. -/
def TextClickHandler.url (q : QUrlApi QUrl QByteArray) : TextClickHandler → QString
  | .Url h => h.url q
  | .HiddenUrl h => h.url q
  | .Mention h => h.url
  | .Hashtag h => h.url
  | .BotCommand h => h.url

/-- The virtual `readable()`: `UrlClickHandler` overrides it, the other classes
keep the base body `return url();`. -/
def TextClickHandler.readable (q : QUrlApi QUrl QByteArray) (t : TextClickHandler) : QString :=
  match t with
  | .Url h => h.readable
  | .HiddenUrl h => h.readable
  | .Mention _ => t.url q
  | .Hashtag _ => t.url q
  | .BotCommand _ => t.url q

/-- The call `TextClickHandler::tooltip()`. -/
def TextClickHandler.tooltip (q : QUrlApi QUrl QByteArray) (t : TextClickHandler) : QString :=
  if t.fullDisplayed then [] else t.readable q

/-- The call `TextClickHandler::copyToClipboard()`. -/
def TextClickHandler.copyToClipboard (q : QUrlApi QUrl QByteArray) (t : TextClickHandler)
    (w : World) : World :=
  let u := t.url q
  if !u.isEmpty then w.setText u else w

/-- Any number of `setFullDisplayed` calls, in order. -/
def TextClickHandler.setFullDisplayedAll (t : TextClickHandler) : List Bool → TextClickHandler
  | [] => t
  | full :: rest => (t.setFullDisplayed full).setFullDisplayedAll rest

/-! ## The command context -/

/-- A `PeerData *`, as an address. -/
abbrev PeerPtr := Nat

/-- A `UserData *`, as an address. -/
abbrev UserPtr := Nat

/-- The static members `_peer` and `_bot` of `BotCommandClickHandler`. -/
structure CommandContext where
  _peer : PeerPtr
  _bot : UserPtr
deriving DecidableEq, Repr

/-- The static `BotCommandClickHandler::setPeerForCommand(PeerData *peer)`. -/
def BotCommandClickHandler.setPeerForCommand (peer : PeerPtr) (c : CommandContext) :
    CommandContext :=
  { _peer := peer, _bot := c._bot }

/-- The static `BotCommandClickHandler::setBotForCommand(UserData *bot)`. -/
def BotCommandClickHandler.setBotForCommand (bot : UserPtr) (c : CommandContext) :
    CommandContext :=
  { _peer := c._peer, _bot := bot }

/-- The static `BotCommandClickHandler::peerForCommand()`. -/
def BotCommandClickHandler.peerForCommand (c : CommandContext) : PeerPtr :=
  c._peer

/-- The static `BotCommandClickHandler::botForCommand()`. -/
def BotCommandClickHandler.botForCommand (c : CommandContext) : UserPtr :=
  c._bot

/-- The program state the bot-command handlers live in: the static context and
the handler objects built so far. -/
structure Session where
  context : CommandContext
  handlers : List BotCommandClickHandler
deriving DecidableEq, Repr

/-- One call on the public interface of `BotCommandClickHandler`. -/
inductive Call where
  | construct (cmd : QString)
  | setPeer (peer : PeerPtr)
  | setBot (bot : UserPtr)
deriving DecidableEq, Repr

/-- The effect of one call on the session. -/
def Session.step (s : Session) : Call → Session
  | .construct cmd =>
    { context := s.context, handlers := s.handlers ++ [BotCommandClickHandler.new cmd] }
  | .setPeer peer =>
    { context := BotCommandClickHandler.setPeerForCommand peer s.context, handlers := s.handlers }
  | .setBot bot =>
    { context := BotCommandClickHandler.setBotForCommand bot s.context, handlers := s.handlers }

/-- The effect of a sequence of calls, first call first. -/
def Session.run (s : Session) : List Call → Session
  | [] => s
  | c :: cs => (s.step c).run cs

/-- The argument of the most recent `setPeerForCommand` among the calls, or
the given earlier value when there is none. -/
def lastPeerSet (earlier : PeerPtr) : List Call → PeerPtr
  | [] => earlier
  | .setPeer peer :: cs => lastPeerSet peer cs
  | _ :: cs => lastPeerSet earlier cs

/-- The argument of the most recent `setBotForCommand` among the calls, or the
given earlier value when there is none. -/
def lastBotSet (earlier : UserPtr) : List Call → UserPtr
  | [] => earlier
  | .setBot bot :: cs => lastBotSet bot cs
  | _ :: cs => lastBotSet earlier cs

/-! ## A concrete URL primitive for examples -/

/-- A small URL primitive: a URL object is its text, it is valid when the text
is non-empty and has no space, and every conversion keeps the text. -/
def sampleApi : QUrlApi QString QString where
  ofString := fun s => s
  isValid := fun s => !s.isEmpty && !s.contains ' '
  toEncoded := fun s => s
  toDisplayString := fun s => s
  stringOfBytes := fun s => s
  fromUtf8 := fun s => s

/-! ## The email classification as the specification words it -/

/-- The text has an `@` at a position before its first `/`. -/
def AtBeforeFirstSlash (s : QString) : Prop :=
  ∃ i j : Nat, s[i]? = some '@' ∧ s[j]? = some '/' ∧ (∀ k : Nat, k < j → s[k]? ≠ some '/') ∧ i < j

/-- The text has an `@` before its first `/`, or has an `@` and no `/` at all. -/
def EmailShape (s : QString) : Prop :=
  AtBeforeFirstSlash s ∨ ('@' ∈ s ∧ '/' ∉ s)

/-! ## The scheme test and the normalized form as the specification words them -/

/-- The text starts with one or more ASCII letters immediately followed by a
colon. -/
def StartsWithLettersColon (s : QString) : Prop :=
  ∃ letters rest : QString, letters ≠ [] ∧ (∀ c ∈ letters, isAsciiLetter c = true) ∧
    s = letters ++ ':' :: rest

/-- The normalized form of an input: the canonical encoding (of the URL read
back from the encoding of the input) when the URL primitive accepts the input
and its re-encoding, the original input otherwise. -/
def normalizedForm (q : QUrlApi QUrl QByteArray) (s : QString) : QString :=
  let reencoded := q.stringOfBytes (q.toEncoded (q.ofString s))
  if q.isValid (q.ofString s) && q.isValid (q.ofString reencoded) then
    q.fromUtf8 (q.toEncoded (q.ofString reencoded))
  else s

/-- The URL primitive parses the input successfully: it accepts the input and
the encoding of the input read back. -/
def parsesSuccessfully (q : QUrlApi QUrl QByteArray) (s : QString) : Bool :=
  q.isValid (q.ofString s) &&
    q.isValid (q.ofString (q.stringOfBytes (q.toEncoded (q.ofString s))))

/-- The display form of the canonical encoding of an input. -/
def displayForm (q : QUrlApi QUrl QByteArray) (s : QString) : QString :=
  q.toDisplayString (q.ofString (q.stringOfBytes (q.toEncoded (q.ofString s))))

/-- The text `example.com`. -/
def exampleCom : QString := ['e', 'x', 'a', 'm', 'p', 'l', 'e', '.', 'c', 'o', 'm']

/-- The text `user@example.com`. -/
def userAtExampleCom : QString := ['u', 's', 'e', 'r', '@'] ++ exampleCom

/-! ## Lemmas on strings -/

theorem indexOfFrom_cases (c : Char) (s : QString) (i : Int) :
    (c ∉ s ∧ indexOfFrom c s i = -1) ∨
      ∃ k : Nat, s[k]? = some c ∧ (∀ j : Nat, j < k → s[j]? ≠ some c) ∧
        indexOfFrom c s i = i + k := by
  induction s generalizing i with
  | nil => left; simp [indexOfFrom]
  | cons x xs ih =>
    by_cases hx : x = c
    · right
      refine ⟨0, by simp [hx], ?_, by simp [indexOfFrom, hx]⟩
      intro j hj
      omega
    · rcases ih (i + 1) with ⟨hmem, hval⟩ | ⟨k, hk, hmin, hval⟩
      · left
        refine ⟨?_, by simp [indexOfFrom, hx, hval]⟩
        simp only [List.mem_cons, not_or]
        exact ⟨fun h => hx h.symm, hmem⟩
      · right
        refine ⟨k + 1, by simpa using hk, ?_, ?_⟩
        · intro j hj
          cases j with
          | zero => simpa using hx
          | succ j => simpa using hmin j (by omega)
        · simp only [indexOfFrom, hx, if_false, hval]
          push_cast
          ring

theorem mem_of_getElem?_eq_some {s : QString} {k : Nat} {c : Char} (h : s[k]? = some c) :
    c ∈ s := by
  rcases List.getElem?_eq_some.1 h with ⟨hk, rfl⟩
  exact List.getElem_mem hk

theorem head?_eq_getElem?_zero (s : QString) : s.head? = s[0]? := by
  cases s <;> simp

/-- C1 (amended): the email classification of a text is true exactly when the
text does not begin with `@` and it has an `@` before its first `/`, or an `@`
and no `/` at all. -/
theorem isEmail_iff_shape_and_not_leading_at (s : QString) :
    UrlClickHandler.isEmailOf s = true ↔ (s.head? ≠ some '@' ∧ EmailShape s) := by
  unfold UrlClickHandler.isEmailOf QString.indexOf
  rcases indexOfFrom_cases '@' s 0 with ⟨hA, hAv⟩ | ⟨k, hk, hkmin, hAv⟩
  · -- no `@` at all
    simp only [hAv]
    constructor
    · intro h
      simp at h
    · rintro ⟨-, ⟨i, j, hi, -⟩ | ⟨hmem, -⟩⟩
      · exact absurd (mem_of_getElem?_eq_some hi) hA
      · exact absurd hmem hA
  · have hhead : s.head? ≠ some '@' ↔ 0 < k := by
      rw [head?_eq_getElem?_zero]
      constructor
      · intro h
        rcases Nat.eq_zero_or_pos k with h0 | h0
        · subst h0
          exact absurd hk h
        · exact h0
      · intro h
        exact hkmin 0 h
    have hmemA : '@' ∈ s := mem_of_getElem?_eq_some hk
    rcases indexOfFrom_cases '/' s 0 with ⟨hS, hSv⟩ | ⟨m, hm, hmmin, hSv⟩
    · -- no `/` at all
      simp only [hAv, hSv, hhead]
      constructor
      · intro h
        simp at h
        exact ⟨by omega, Or.inr ⟨hmemA, hS⟩⟩
      · rintro ⟨h, -⟩
        simp
        omega
    · have hmemS : '/' ∈ s := mem_of_getElem?_eq_some hm
      simp only [hAv, hSv, hhead]
      constructor
      · intro h
        simp at h
        refine ⟨by omega, Or.inl ⟨k, m, hk, hm, hmmin, ?_⟩⟩
        rcases h with ⟨-, h | h⟩ <;> omega
      · rintro ⟨h, ⟨i, j, hi, hj, hjmin, hij⟩ | ⟨-, hno⟩⟩
        · have hjm : j = m := by
            rcases Nat.lt_trichotomy j m with h1 | h1 | h1
            · exact absurd hj (hmmin j h1)
            · exact h1
            · exact absurd hm (hjmin m h1)
          have hki : k ≤ i := by
            by_contra hlt
            exact hkmin i (by omega) hi
          simp
          omega
        · exact absurd hmemS hno

/-- C1 (as stated) fails on the text `@a`: it has an `@` and no `/`, and the
classification is false, because the first `@` is at index 0. -/
theorem isEmail_leading_at_counterexample :
    EmailShape ['@', 'a'] ∧ UrlClickHandler.isEmailOf ['@', 'a'] = false := by
  refine ⟨Or.inr ⟨by decide, by decide⟩, by decide⟩

/-! ## The scheme test -/

theorem matchLettersColon_iff (s : QString) :
    matchLettersColon s = true ↔
      ∃ letters rest : QString, (∀ c ∈ letters, isAsciiLetter c = true) ∧
        s = letters ++ ':' :: rest := by
  induction s with
  | nil =>
    simp [matchLettersColon]
  | cons c cs ih =>
    by_cases hc : isAsciiLetter c = true
    · simp only [matchLettersColon, hc, if_true, ih]
      constructor
      · rintro ⟨letters, rest, hall, rfl⟩
        refine ⟨c :: letters, rest, ?_, rfl⟩
        intro d hd
        rcases List.mem_cons.1 hd with rfl | hd
        · exact hc
        · exact hall d hd
      · rintro ⟨letters, rest, hall, heq⟩
        cases letters with
        | nil =>
          simp only [List.nil_append, List.cons.injEq] at heq
          rw [heq.1] at hc
          exact absurd hc (by decide)
        | cons d ds =>
          simp only [List.cons_append, List.cons.injEq] at heq
          exact ⟨ds, rest, fun e he => hall e (List.mem_cons_of_mem _ he), heq.2⟩
    · have hc' : isAsciiLetter c = false := by simpa using hc
      simp only [matchLettersColon, hc', Bool.false_eq_true, if_false, decide_eq_true_eq]
      constructor
      · intro h
        exact ⟨[], cs, by simp, by simp [h]⟩
      · rintro ⟨letters, rest, hall, heq⟩
        cases letters with
        | nil =>
          simp only [List.nil_append, List.cons.injEq] at heq
          simp [heq.1]
        | cons d ds =>
          simp only [List.cons_append, List.cons.injEq] at heq
          exact absurd (hall d (List.mem_cons_self _ _)) (heq.1 ▸ hc)

/-- The regular-expression test holds exactly for the texts that start with
one or more ASCII letters followed by a colon. -/
theorem hasSchemeMatch_iff (s : QString) :
    hasSchemeMatch s = true ↔ StartsWithLettersColon s := by
  cases s with
  | nil =>
    simp [hasSchemeMatch, StartsWithLettersColon]
  | cons c cs =>
    simp only [hasSchemeMatch, Bool.and_eq_true, matchLettersColon_iff, StartsWithLettersColon]
    constructor
    · rintro ⟨hc, letters, rest, hall, rfl⟩
      refine ⟨c :: letters, rest, by simp, ?_, rfl⟩
      intro d hd
      rcases List.mem_cons.1 hd with rfl | hd
      · exact hc
      · exact hall d hd
    · rintro ⟨letters, rest, hne, hall, heq⟩
      cases letters with
      | nil => exact absurd rfl hne
      | cons d ds =>
        simp only [List.cons_append, List.cons.injEq] at heq
        refine ⟨heq.1 ▸ hall d (List.mem_cons_self _ _), ds, rest, ?_, heq.2⟩
        exact fun e he => hall e (List.mem_cons_of_mem _ he)

/-! ## Construction -/

@[simp] theorem new_originalUrl (q : QUrlApi QUrl QByteArray) (s : QString) (fd : Bool) :
    (UrlClickHandler.new q s fd)._originalUrl = s := by
  unfold UrlClickHandler.new
  split <;> rfl

@[simp] theorem new_fullDisplayed (q : QUrlApi QUrl QByteArray) (s : QString) (fd : Bool) :
    (UrlClickHandler.new q s fd)._fullDisplayed = fd := by
  unfold UrlClickHandler.new
  split <;> rfl

/-- With a URL primitive that rejects the empty text, the `result` of `url()`
is the normalized form of the input. -/
theorem normalized_eq_normalizedForm (q : QUrlApi QUrl QByteArray) (h : UrlClickHandler)
    (hEmpty : q.isValid (q.ofString []) = false) :
    h.normalized q = normalizedForm q h._originalUrl := by
  unfold UrlClickHandler.normalized normalizedForm goodUrl
  by_cases hv : q.isValid (q.ofString h._originalUrl) = true
  · simp [hv]
  · simp [hv, hEmpty]

/-- With a URL primitive that rejects the empty text, the test `good.isValid()`
holds exactly when the input parses successfully. -/
theorem isValid_goodUrl (q : QUrlApi QUrl QByteArray) (s : QString)
    (hEmpty : q.isValid (q.ofString []) = false) :
    q.isValid (goodUrl q s) = parsesSuccessfully q s := by
  unfold goodUrl parsesSuccessfully
  by_cases hv : q.isValid (q.ofString s) = true
  · simp [hv]
  · simp [hv, hEmpty]

theorem url_of_not_email (q : QUrlApi QUrl QByteArray) (h : UrlClickHandler)
    (hne : UrlClickHandler.isEmailOf h._originalUrl = false) :
    h.url q = if hasSchemeMatch (h.normalized q) = true then h.normalized q
      else httpLiteral ++ h.normalized q := by
  unfold UrlClickHandler.url UrlClickHandler.isEmail
  rw [hne]
  cases hm : hasSchemeMatch (h.normalized q) <;> simp [hm]

theorem httpLiteral_append_ne (s : QString) : httpLiteral ++ s ≠ s := by
  intro h
  have hlen := congrArg List.length h
  simp [httpLiteral] at hlen
  omega

theorem readable_setFullDisplayed (q : QUrlApi QUrl QByteArray) (t : TextClickHandler)
    (full : Bool) : (t.setFullDisplayed full).readable q = t.readable q := by
  cases t <;> rfl

theorem url_setFullDisplayed (q : QUrlApi QUrl QByteArray) (t : TextClickHandler)
    (full : Bool) : (t.setFullDisplayed full).url q = t.url q := by
  cases t <;> rfl

theorem fullDisplayed_setFullDisplayed (t : TextClickHandler) (full : Bool) :
    (t.setFullDisplayed full).fullDisplayed = full := by
  cases t <;> rfl

theorem readable_setFullDisplayedAll (q : QUrlApi QUrl QByteArray) (t : TextClickHandler)
    (fulls : List Bool) : (t.setFullDisplayedAll fulls).readable q = t.readable q := by
  induction fulls generalizing t with
  | nil => rfl
  | cons full rest ih =>
    simp only [TextClickHandler.setFullDisplayedAll]
    rw [ih, readable_setFullDisplayed]

theorem new_readable_of_not_email (q : QUrlApi QUrl QByteArray) (s : QString) (fd : Bool)
    (hne : UrlClickHandler.isEmailOf s = false) :
    (UrlClickHandler.new q s fd).readable =
      if q.isValid (goodUrl q s) = true then q.toDisplayString (goodUrl q s) else s := by
  unfold UrlClickHandler.readable UrlClickHandler.new
  simp [hne]

/-! ## The claims on `UrlClickHandler` -/

/-- C2: for an input that is not classified as email, with `N` its normalized
form, `url()` is `N` when `N` starts with one or more ASCII letters followed by
a colon and is `http://` followed by `N` otherwise; so a normalized form `a:b`
is returned as it is and `example.com` gives `http://example.com`. The URL
primitive is any one that rejects the empty text. -/
theorem url_non_email_injects_http (q : QUrlApi QUrl QByteArray) (s : QString) (fd : Bool)
    (hEmpty : q.isValid (q.ofString []) = false)
    (hne : UrlClickHandler.isEmailOf s = false) :
    (StartsWithLettersColon (normalizedForm q s) →
        (UrlClickHandler.new q s fd).url q = normalizedForm q s) ∧
    (¬ StartsWithLettersColon (normalizedForm q s) →
        (UrlClickHandler.new q s fd).url q = httpLiteral ++ normalizedForm q s) ∧
    (normalizedForm q s = ['a', ':', 'b'] →
        (UrlClickHandler.new q s fd).url q = ['a', ':', 'b']) ∧
    (normalizedForm q s = exampleCom →
        (UrlClickHandler.new q s fd).url q = httpLiteral ++ exampleCom) := by
  have hurl := url_of_not_email q (UrlClickHandler.new q s fd) (by simpa using hne)
  rw [normalized_eq_normalizedForm q _ hEmpty, new_originalUrl] at hurl
  refine ⟨?_, ?_, ?_, ?_⟩
  · intro hs
    rw [hurl, if_pos ((hasSchemeMatch_iff _).2 hs)]
  · intro hs
    rw [hurl, if_neg (fun hm => hs ((hasSchemeMatch_iff _).1 hm))]
  · intro hN
    rw [hurl, hN]
    decide
  · intro hN
    rw [hurl, hN]
    decide

/-- An instance of C2: with the sample URL primitive, the handler of
`example.com` navigates to `http://example.com`. -/
theorem url_non_email_injects_http_witness :
    sampleApi.isValid (sampleApi.ofString []) = false ∧
      UrlClickHandler.isEmailOf exampleCom = false ∧
      (UrlClickHandler.new sampleApi exampleCom true).url sampleApi = httpLiteral ++ exampleCom :=
  ⟨by decide, by decide,
    (url_non_email_injects_http sampleApi exampleCom true (by decide) (by decide)).2.2.2
      (by decide)⟩

/-- C3: for an input classified as email, `url()` and `readable()` of the
handler built from it are the input itself, for every URL primitive. -/
theorem email_url_and_readable_verbatim (q : QUrlApi QUrl QByteArray) (s : QString) (fd : Bool)
    (he : UrlClickHandler.isEmailOf s = true) :
    (UrlClickHandler.new q s fd).url q = s ∧ (UrlClickHandler.new q s fd).readable = s := by
  constructor
  · unfold UrlClickHandler.url UrlClickHandler.isEmail
    simp [he]
  · unfold UrlClickHandler.readable UrlClickHandler.new
    simp [he]

/-- An instance of C3: the handler of `user@example.com`. -/
theorem email_url_and_readable_verbatim_witness :
    UrlClickHandler.isEmailOf userAtExampleCom = true ∧
      (UrlClickHandler.new sampleApi userAtExampleCom true).url sampleApi = userAtExampleCom ∧
      (UrlClickHandler.new sampleApi userAtExampleCom true).readable = userAtExampleCom :=
  ⟨by decide, email_url_and_readable_verbatim sampleApi userAtExampleCom true (by decide)⟩

/-- C4: for an input that is not classified as email, `readable()` is the value
fixed at construction: the display form of the canonical encoding when the URL
primitive parses the input successfully, the input itself when it does not; and
it is the same value after any sequence of `setFullDisplayed` calls. The URL
primitive is any one that rejects the empty text. -/
theorem readable_fixed_at_construction (q : QUrlApi QUrl QByteArray) (s : QString) (fd : Bool)
    (fulls : List Bool)
    (hEmpty : q.isValid (q.ofString []) = false)
    (hne : UrlClickHandler.isEmailOf s = false) :
    (TextClickHandler.Url (UrlClickHandler.new q s fd)).readable q =
        (if parsesSuccessfully q s = true then displayForm q s else s) ∧
      ((TextClickHandler.Url (UrlClickHandler.new q s fd)).setFullDisplayedAll fulls).readable q =
        (TextClickHandler.Url (UrlClickHandler.new q s fd)).readable q := by
  refine ⟨?_, readable_setFullDisplayedAll q _ fulls⟩
  show (UrlClickHandler.new q s fd).readable = _
  rw [new_readable_of_not_email q s fd hne, isValid_goodUrl q s hEmpty]
  by_cases hp : parsesSuccessfully q s = true
  · rw [if_pos hp, if_pos hp]
    have hv : q.isValid (q.ofString s) = true := by
      unfold parsesSuccessfully at hp
      simp only [Bool.and_eq_true] at hp
      exact hp.1
    simp [goodUrl, displayForm, hv]
  · rw [if_neg hp, if_neg hp]

/-- An instance of C4: the handler of `example.com` with the sample URL
primitive, read after two changes of the flag. -/
theorem readable_fixed_at_construction_witness :
    sampleApi.isValid (sampleApi.ofString []) = false ∧
      UrlClickHandler.isEmailOf exampleCom = false ∧
      ((TextClickHandler.Url (UrlClickHandler.new sampleApi exampleCom true)).setFullDisplayedAll
          [false, true]).readable sampleApi =
        (TextClickHandler.Url (UrlClickHandler.new sampleApi exampleCom true)).readable sampleApi :=
  ⟨by decide, by decide,
    (readable_fixed_at_construction sampleApi exampleCom true [false, true]
      (by decide) (by decide)).2⟩

/-- C5: for an input that is not classified as email, that the URL primitive
fails to parse and that does not start with one or more ASCII letters followed
by a colon, `readable()` is the input, `url()` is `http://` followed by the
input, and the two differ. The URL primitive is any one that rejects the empty
text. -/
theorem malformed_readable_differs_from_url (q : QUrlApi QUrl QByteArray) (s : QString)
    (fd : Bool)
    (hEmpty : q.isValid (q.ofString []) = false)
    (hne : UrlClickHandler.isEmailOf s = false)
    (hfail : parsesSuccessfully q s = false)
    (hplain : ¬ StartsWithLettersColon s) :
    (UrlClickHandler.new q s fd).readable = s ∧
      (UrlClickHandler.new q s fd).url q = httpLiteral ++ s ∧
      (UrlClickHandler.new q s fd).readable ≠ (UrlClickHandler.new q s fd).url q := by
  have hr : (UrlClickHandler.new q s fd).readable = s := by
    rw [new_readable_of_not_email q s fd hne, isValid_goodUrl q s hEmpty, hfail]
    simp
  have hn : (UrlClickHandler.new q s fd).normalized q = s := by
    rw [normalized_eq_normalizedForm q _ hEmpty, new_originalUrl]
    unfold normalizedForm
    unfold parsesSuccessfully at hfail
    simp [hfail]
  have hu : (UrlClickHandler.new q s fd).url q = httpLiteral ++ s := by
    rw [url_of_not_email q _ (by simpa using hne), hn,
      if_neg (fun hm => hplain ((hasSchemeMatch_iff _).1 hm))]
  refine ⟨hr, hu, ?_⟩
  rw [hr, hu]
  exact fun h => httpLiteral_append_ne s h.symm

/-- An instance of C5: the text `a b`, which the sample URL primitive rejects
for its space. -/
theorem malformed_readable_differs_from_url_witness :
    (UrlClickHandler.new sampleApi ['a', ' ', 'b'] true).readable = ['a', ' ', 'b'] ∧
      (UrlClickHandler.new sampleApi ['a', ' ', 'b'] true).url sampleApi =
        httpLiteral ++ ['a', ' ', 'b'] ∧
      (UrlClickHandler.new sampleApi ['a', ' ', 'b'] true).readable ≠
        (UrlClickHandler.new sampleApi ['a', ' ', 'b'] true).url sampleApi :=
  malformed_readable_differs_from_url sampleApi ['a', ' ', 'b'] true (by decide) (by decide)
    (by decide) (fun h => absurd ((hasSchemeMatch_iff _).2 h) (by decide))

/-! ## The claims on `TextClickHandler` -/

/-- C6: for every text-derived handler, `tooltip()` is the empty text when the
flag is true and `readable()` when it is false, whether the flag comes from the
constructor or from `setFullDisplayed`; `readable()` is the cached text for the
URL handlers and `url()` for the tag handlers. -/
theorem tooltip_follows_fullDisplayed (q : QUrlApi QUrl QByteArray) (t : TextClickHandler)
    (s : QString) :
    t.tooltip q = (if t.fullDisplayed = true then [] else t.readable q) ∧
      (t.setFullDisplayed true).tooltip q = [] ∧
      (t.setFullDisplayed false).tooltip q = (t.setFullDisplayed false).readable q ∧
      (t.setFullDisplayed false).tooltip q = t.readable q ∧
      (TextClickHandler.Url (UrlClickHandler.new q s true)).tooltip q = [] ∧
      (TextClickHandler.Url (UrlClickHandler.new q s false)).tooltip q =
        (UrlClickHandler.new q s false)._readable ∧
      (TextClickHandler.HiddenUrl (HiddenUrlClickHandler.new q s)).tooltip q =
        (HiddenUrlClickHandler.new q s)._readable ∧
      (TextClickHandler.Mention (MentionClickHandler.new s)).tooltip q = [] ∧
      (TextClickHandler.Hashtag (HashtagClickHandler.new s)).tooltip q = [] ∧
      (TextClickHandler.BotCommand (BotCommandClickHandler.new s)).tooltip q = [] ∧
      ((TextClickHandler.Mention (MentionClickHandler.new s)).setFullDisplayed false).tooltip q =
        (TextClickHandler.Mention (MentionClickHandler.new s)).url q ∧
      ((TextClickHandler.Hashtag (HashtagClickHandler.new s)).setFullDisplayed false).tooltip q =
        (TextClickHandler.Hashtag (HashtagClickHandler.new s)).url q ∧
      ((TextClickHandler.BotCommand (BotCommandClickHandler.new s)).setFullDisplayed
          false).tooltip q =
        (TextClickHandler.BotCommand (BotCommandClickHandler.new s)).url q := by
  refine ⟨?_, ?_, ?_, ?_, ?_, ?_, ?_, rfl, rfl, rfl, rfl, rfl, rfl⟩
  · unfold TextClickHandler.tooltip
    cases t.fullDisplayed <;> simp
  · unfold TextClickHandler.tooltip
    rw [fullDisplayed_setFullDisplayed]
    rfl
  · unfold TextClickHandler.tooltip
    rw [fullDisplayed_setFullDisplayed]
    simp
  · unfold TextClickHandler.tooltip
    rw [fullDisplayed_setFullDisplayed, readable_setFullDisplayed]
    simp
  · simp [TextClickHandler.tooltip, TextClickHandler.fullDisplayed]
  · simp [TextClickHandler.tooltip, TextClickHandler.fullDisplayed, TextClickHandler.readable,
      UrlClickHandler.readable]
  · simp [TextClickHandler.tooltip, TextClickHandler.fullDisplayed, TextClickHandler.readable,
      UrlClickHandler.readable, HiddenUrlClickHandler.new]

/-- C7: `copyToClipboard()` of a text-derived handler makes exactly one
clipboard write, of `url()`, when `url()` is not empty, and leaves everything
as it was when `url()` is empty, as for a mention, hashtag or bot-command
handler built from the empty text. -/
theorem copyToClipboard_writes_iff_url_nonempty (q : QUrlApi QUrl QByteArray)
    (t : TextClickHandler) (w : World) :
    (t.copyToClipboard q w).clipboardWrites =
        (if t.url q = [] then w.clipboardWrites else w.clipboardWrites ++ [t.url q]) ∧
      (t.copyToClipboard q w).clipboard = (if t.url q = [] then w.clipboard else t.url q) ∧
      (t.copyToClipboard q w).opened = w.opened ∧
      (t.copyToClipboard q w = w ∨ t.url q ≠ []) ∧
      (TextClickHandler.Mention (MentionClickHandler.new [])).copyToClipboard q w = w ∧
      (TextClickHandler.Hashtag (HashtagClickHandler.new [])).copyToClipboard q w = w ∧
      (TextClickHandler.BotCommand (BotCommandClickHandler.new [])).copyToClipboard q w = w := by
  refine ⟨?_, ?_, ?_, ?_, rfl, rfl, rfl⟩ <;>
    unfold TextClickHandler.copyToClipboard <;>
    cases hu : t.url q <;>
    simp [QString.isEmpty, World.setText]

/-- C8: `onClick(button)` of a `UrlClickHandler` calls `doOpen` exactly once,
with `url()`, when the button is the left or the middle one, and does nothing
for any other button; for `example.com` the argument is the navigation form
`http://example.com`, not the readable form. -/
theorem onClick_opens_url_on_left_or_middle (q : QUrlApi QUrl QByteArray) (h : UrlClickHandler)
    (button : MouseButton) (w : World) :
    h.onClick q button w =
        (if button = MouseButton.LeftButton ∨ button = MouseButton.MiddleButton then
          { clipboard := w.clipboard, clipboardWrites := w.clipboardWrites,
            opened := w.opened ++ [h.url q] }
        else w) ∧
      (h.onClick q MouseButton.LeftButton w).opened = w.opened ++ [h.url q] ∧
      (h.onClick q MouseButton.MiddleButton w).opened = w.opened ++ [h.url q] ∧
      h.onClick q MouseButton.RightButton w = w ∧
      h.onClick q MouseButton.NoButton w = w ∧
      ((UrlClickHandler.new sampleApi exampleCom true).onClick sampleApi MouseButton.LeftButton
          w).opened = w.opened ++ [httpLiteral ++ exampleCom] ∧
      (UrlClickHandler.new sampleApi exampleCom true).readable = exampleCom := by
  refine ⟨?_, rfl, rfl, rfl, rfl, ?_, by decide⟩
  · unfold UrlClickHandler.onClick UrlClickHandler.doOpen
    cases button <;> simp
  · have hu : (UrlClickHandler.new sampleApi exampleCom true).url sampleApi =
        httpLiteral ++ exampleCom := by decide
    simp [UrlClickHandler.onClick, UrlClickHandler.doOpen, hu]

/-! ## The command context -/

theorem run_append (s : Session) (xs ys : List Call) :
    s.run (xs ++ ys) = (s.run xs).run ys := by
  induction xs generalizing s with
  | nil => rfl
  | cons x xs ih => exact ih (s.step x)

theorem peer_run_of_no_setPeer (s : Session) (calls : List Call)
    (hno : ∀ peer : PeerPtr, Call.setPeer peer ∉ calls) :
    BotCommandClickHandler.peerForCommand (s.run calls).context =
      BotCommandClickHandler.peerForCommand s.context := by
  induction calls generalizing s with
  | nil => rfl
  | cons c cs ih =>
    have hcs : ∀ peer : PeerPtr, Call.setPeer peer ∉ cs :=
      fun peer hmem => hno peer (List.mem_cons_of_mem _ hmem)
    simp only [Session.run]
    rw [ih _ hcs]
    cases c with
    | construct cmd => rfl
    | setPeer peer => exact absurd (List.mem_cons_self _ _) (hno peer)
    | setBot bot => rfl

theorem bot_run_of_no_setBot (s : Session) (calls : List Call)
    (hno : ∀ bot : UserPtr, Call.setBot bot ∉ calls) :
    BotCommandClickHandler.botForCommand (s.run calls).context =
      BotCommandClickHandler.botForCommand s.context := by
  induction calls generalizing s with
  | nil => rfl
  | cons c cs ih =>
    have hcs : ∀ bot : UserPtr, Call.setBot bot ∉ cs :=
      fun bot hmem => hno bot (List.mem_cons_of_mem _ hmem)
    simp only [Session.run]
    rw [ih _ hcs]
    cases c with
    | construct cmd => rfl
    | setPeer peer => rfl
    | setBot bot => exact absurd (List.mem_cons_self _ _) (hno bot)

theorem peer_run_eq_last (s : Session) (calls : List Call) :
    BotCommandClickHandler.peerForCommand (s.run calls).context =
      lastPeerSet (BotCommandClickHandler.peerForCommand s.context) calls := by
  induction calls generalizing s with
  | nil => rfl
  | cons c cs ih =>
    simp only [Session.run]
    rw [ih]
    cases c <;> rfl

theorem bot_run_eq_last (s : Session) (calls : List Call) :
    BotCommandClickHandler.botForCommand (s.run calls).context =
      lastBotSet (BotCommandClickHandler.botForCommand s.context) calls := by
  induction calls generalizing s with
  | nil => rfl
  | cons c cs ih =>
    simp only [Session.run]
    rw [ih]
    cases c <;> rfl

/-- C9: the command context is not captured at construction. After any calls,
with handlers constructed anywhere among them, `peerForCommand()` and
`botForCommand()` are the arguments of the most recent `setPeerForCommand` and
`setBotForCommand`; a read after an update differs from the read before it
exactly when the update gave a different peer (or bot). -/
theorem command_context_read_fresh (s : Session) (calls : List Call) (c : CommandContext)
    (peer : PeerPtr) (bot : UserPtr) :
    BotCommandClickHandler.peerForCommand (s.run calls).context =
        lastPeerSet (BotCommandClickHandler.peerForCommand s.context) calls ∧
      BotCommandClickHandler.botForCommand (s.run calls).context =
        lastBotSet (BotCommandClickHandler.botForCommand s.context) calls ∧
      (∀ before after : List Call, (∀ p : PeerPtr, Call.setPeer p ∉ after) →
        BotCommandClickHandler.peerForCommand
          (s.run (before ++ Call.setPeer peer :: after)).context = peer) ∧
      (∀ before after : List Call, (∀ b : UserPtr, Call.setBot b ∉ after) →
        BotCommandClickHandler.botForCommand
          (s.run (before ++ Call.setBot bot :: after)).context = bot) ∧
      BotCommandClickHandler.peerForCommand
        (BotCommandClickHandler.setPeerForCommand peer c) = peer ∧
      BotCommandClickHandler.botForCommand
        (BotCommandClickHandler.setBotForCommand bot c) = bot ∧
      (BotCommandClickHandler.peerForCommand (BotCommandClickHandler.setPeerForCommand peer c) ≠
          BotCommandClickHandler.peerForCommand c ↔
        peer ≠ BotCommandClickHandler.peerForCommand c) ∧
      (BotCommandClickHandler.botForCommand (BotCommandClickHandler.setBotForCommand bot c) ≠
          BotCommandClickHandler.botForCommand c ↔
        bot ≠ BotCommandClickHandler.botForCommand c) := by
  refine ⟨peer_run_eq_last s calls, bot_run_eq_last s calls, ?_, ?_, rfl, rfl, Iff.rfl, Iff.rfl⟩
  · intro before after hno
    rw [run_append]
    simp only [Session.run]
    rw [peer_run_of_no_setPeer _ after hno]
    rfl
  · intro before after hno
    rw [run_append]
    simp only [Session.run]
    rw [bot_run_of_no_setBot _ after hno]
    rfl

/-! ## `url()` of a URL handler is never empty -/

theorem url_ne_nil (q : QUrlApi QUrl QByteArray) (h : UrlClickHandler) : h.url q ≠ [] := by
  by_cases he : UrlClickHandler.isEmailOf h._originalUrl = true
  · intro hnil
    have hu : h.url q = h._originalUrl := by
      unfold UrlClickHandler.url UrlClickHandler.isEmail
      simp [he]
    rw [hu] at hnil
    rw [hnil] at he
    exact absurd he (by decide)
  · rw [url_of_not_email q h (by simpa using he)]
    by_cases hm : hasSchemeMatch (h.normalized q) = true
    · rw [if_pos hm]
      intro hnil
      rw [hnil] at hm
      exact absurd hm (by decide)
    · rw [if_neg hm]
      simp [httpLiteral]

/-- C10: for every input text, the empty text included, and every URL
primitive, `url()` of a `UrlClickHandler` and of a `HiddenUrlClickHandler` is
not empty, so `copyToClipboard()` on them always makes its clipboard write. -/
theorem url_handler_url_nonempty (q : QUrlApi QUrl QByteArray) (s : QString) (fd : Bool)
    (w : World) :
    (UrlClickHandler.new q s fd).url q ≠ [] ∧
      (HiddenUrlClickHandler.new q s).url q ≠ [] ∧
      (UrlClickHandler.new q [] fd).url q ≠ [] ∧
      (TextClickHandler.Url (UrlClickHandler.new q s fd)).copyToClipboard q w =
        w.setText ((UrlClickHandler.new q s fd).url q) ∧
      (TextClickHandler.HiddenUrl (HiddenUrlClickHandler.new q s)).copyToClipboard q w =
        w.setText ((HiddenUrlClickHandler.new q s).url q) ∧
      ((TextClickHandler.Url (UrlClickHandler.new q s fd)).copyToClipboard q w).clipboardWrites =
        w.clipboardWrites ++ [(UrlClickHandler.new q s fd).url q] ∧
      ((TextClickHandler.HiddenUrl (HiddenUrlClickHandler.new q s)).copyToClipboard q
          w).clipboardWrites =
        w.clipboardWrites ++ [(HiddenUrlClickHandler.new q s).url q] := by
  have copy_eq : ∀ h : UrlClickHandler, ∀ t : TextClickHandler, t.url q = h.url q →
      t.copyToClipboard q w = w.setText (h.url q) := by
    intro h t ht
    unfold TextClickHandler.copyToClipboard
    rw [ht]
    cases hu : h.url q with
    | nil => exact absurd hu (url_ne_nil q h)
    | cons x xs => simp [QString.isEmpty]
  refine ⟨url_ne_nil q _, url_ne_nil q _, url_ne_nil q _,
    copy_eq (UrlClickHandler.new q s fd) (.Url _) rfl,
    copy_eq (HiddenUrlClickHandler.new q s) (.HiddenUrl _) rfl, ?_, ?_⟩
  · rw [copy_eq (UrlClickHandler.new q s fd) (.Url _) rfl]
    rfl
  · rw [copy_eq (HiddenUrlClickHandler.new q s) (.HiddenUrl _) rfl]
    rfl

end ClickHandlerTypes
